import Mathlib

/-!
Verification of the D'Hondt seat-allocation core of simulador_dhondt.py.

The development shallow-embeds the functions of the script that the claims
are about: dhondt (seat allocation over a quotient table), sanitize
(vote-column normalisation), the percentage column computed by the page, and
quotient_matrix_top4 (the divisor 1..4 matrix with the top-4 highlight).

Modelling conventions:
* A pandas DataFrame row table is a list of rows in order; the DataFrame
  index is the row position.
* Python float division of vote counts is modelled by exact rational
  division; numpy round-half-to-even is modelled exactly on rationals.
* pandas sort_values(by, ascending=False) reverses the key array and the
  index array, computes a stable ascending argsort of the reversed keys,
  and reverses the resulting indexer (pandas/core/sorting.py, nargsort).
  The double reversal makes the descending sort stable: equal keys keep
  their original input order.  This order — larger value first, earlier
  original position first on ties — is rendered below as the reverse of an
  ascending sort by the lexicographic key (value ascending, original
  position descending), implemented by structural insertion so that
  concrete instances evaluate inside the kernel.  The sort kind used by
  the script is the pandas default; its tie behaviour is modelled as
  stable.
-/

namespace SimuladorDhondt

/-- Insert an element into a list so that every element strictly before it
satisfies the boolean comparison; the building block of the ascending sort. -/
def insertAsc (le : α → α → Bool) (a : α) : List α → List α
  | [] => [a]
  | b :: t => if le a b then a :: b :: t else b :: insertAsc le a t

/-- Ascending insertion sort by a boolean comparison. -/
def sortAsc (le : α → α → Bool) : List α → List α
  | [] => []
  | a :: t => insertAsc le a (sortAsc le t)

/-- Model of pandas sort_values with ascending=False: the reverse of an
ascending sort of the list.  The comparisons used in this development are
total lexicographic keys on (column value ascending, original position
descending), so that the reversed result is the stable descending order of
nargsort: larger values first and, on equal values, the earlier original
position first (nargsort reverses keys and index before the stable
ascending argsort and the indexer after, preserving input order on ties). -/
def sortValuesDesc (le : α → α → Bool) (l : List α) : List α :=
  (sortAsc le l).reverse

theorem mem_insertAsc {le : α → α → Bool} {a x : α} :
    ∀ {l : List α}, x ∈ insertAsc le a l ↔ x = a ∨ x ∈ l
  | [] => by simp [insertAsc]
  | b :: t => by
    by_cases h : le a b
    · simp [insertAsc, h]
    · simp only [insertAsc, if_neg h, List.mem_cons, mem_insertAsc (l := t)]
      tauto

theorem perm_insertAsc (le : α → α → Bool) (a : α) :
    ∀ l : List α, (insertAsc le a l).Perm (a :: l)
  | [] => by simp [insertAsc]
  | b :: t => by
    by_cases h : le a b
    · simp [insertAsc, h]
    · rw [insertAsc, if_neg h]
      exact ((perm_insertAsc le a t).cons b).trans (List.Perm.swap a b t)

theorem perm_sortAsc (le : α → α → Bool) :
    ∀ l : List α, (sortAsc le l).Perm l
  | [] => by simp [sortAsc]
  | a :: t => by
    rw [sortAsc]
    exact (perm_insertAsc le a (sortAsc le t)).trans ((perm_sortAsc le t).cons a)

theorem pairwise_insertAsc {le : α → α → Bool}
    (htrans : ∀ a b c, le a b → le b c → le a c)
    (htotal : ∀ a b, le a b ∨ le b a) (a : α) :
    ∀ {l : List α}, l.Pairwise (fun x y => le x y = true) →
      (insertAsc le a l).Pairwise (fun x y => le x y = true)
  | [], _ => by simp [insertAsc]
  | b :: t, hp => by
    rcases List.pairwise_cons.mp hp with ⟨hb, ht⟩
    by_cases h : le a b
    · rw [insertAsc, if_pos h]
      refine List.pairwise_cons.mpr ⟨?_, hp⟩
      intro y hy
      rcases List.mem_cons.mp hy with rfl | hy
      · exact h
      · exact htrans a b y h (hb y hy)
    · rw [insertAsc, if_neg h]
      refine List.pairwise_cons.mpr ⟨?_, pairwise_insertAsc htrans htotal a ht⟩
      intro y hy
      rcases mem_insertAsc.mp hy with heq | hy
      · rw [heq]
        rcases htotal a b with h1 | h1
        · exact absurd h1 h
        · exact h1
      · exact hb y hy

theorem pairwise_sortAsc {le : α → α → Bool}
    (htrans : ∀ a b c, le a b → le b c → le a c)
    (htotal : ∀ a b, le a b ∨ le b a) :
    ∀ l : List α, (sortAsc le l).Pairwise (fun x y => le x y = true)
  | [] => by simp [sortAsc]
  | a :: t => by
    rw [sortAsc]
    exact pairwise_insertAsc htrans htotal a (pairwise_sortAsc htrans htotal t)

theorem perm_sortValuesDesc (le : α → α → Bool) (l : List α) :
    (sortValuesDesc le l).Perm l :=
  (List.reverse_perm (sortAsc le l)).trans (perm_sortAsc le l)

theorem length_sortValuesDesc (le : α → α → Bool) (l : List α) :
    (sortValuesDesc le l).length = l.length :=
  (perm_sortValuesDesc le l).length_eq

theorem pairwise_sortValuesDesc {le : α → α → Bool}
    (htrans : ∀ a b c, le a b → le b c → le a c)
    (htotal : ∀ a b, le a b ∨ le b a) (l : List α) :
    (sortValuesDesc le l).Pairwise (fun x y => le y x = true) :=
  List.pairwise_reverse.mpr (pairwise_sortAsc htrans htotal l)

theorem countP_add_countP_neg (p : α → Bool) :
    ∀ l : List α, l.countP p + l.countP (fun a => !(p a)) = l.length
  | [] => by simp
  | a :: t => by
    rw [List.countP_cons, List.countP_cons]
    have := countP_add_countP_neg p t
    by_cases h : p a <;> simp [h] <;> omega

/-- Counting inside the first S elements of a list sorted by an asymmetric
relation R: an element of the sorted prefix is exactly an element of the
whole list preceded by fewer than S elements in the R order. -/
theorem countP_take_sorted (R : α → α → Prop) [DecidableRel R]
    (hasym : ∀ a b, R a b → ¬R b a) (p : α → Bool) :
    ∀ (s : List α), s.Pairwise R → ∀ S : ℕ,
      (s.take S).countP p =
        s.countP (fun e => p e && decide (s.countP (fun y => decide (R y e)) < S))
  | [], _, _ => by simp
  | x :: t, hp, 0 => by
    simp only [List.take_zero, List.countP_nil]
    rw [Eq.comm, List.countP_eq_zero]
    intro a _
    simp
  | x :: t, hp, S + 1 => by
    rcases List.pairwise_cons.mp hp with ⟨hx, ht⟩
    have hcx : (x :: t).countP (fun y => decide (R y x)) = 0 := by
      rw [List.countP_eq_zero]
      intro a ha
      rcases List.mem_cons.mp ha with rfl | ha
      · simpa using fun h => hasym a a h h
      · simpa using hasym x a (hx a ha)
    have hshift : ∀ e ∈ t,
        (x :: t).countP (fun y => decide (R y e)) =
          t.countP (fun y => decide (R y e)) + 1 := by
      intro e he
      rw [List.countP_cons]
      simp [hx e he, Nat.add_comm]
    rw [List.take_succ_cons, List.countP_cons, List.countP_cons, hcx]
    have hcongr : t.countP
        (fun e => p e && decide ((x :: t).countP (fun y => decide (R y e)) < S + 1)) =
        t.countP (fun e => p e && decide (t.countP (fun y => decide (R y e)) < S)) := by
      apply List.countP_congr
      intro e he
      rw [hshift e he]
      constructor <;>
      · intro h
        simp only [Bool.and_eq_true, decide_eq_true_eq] at h ⊢
        exact ⟨h.1, by omega⟩
    rw [hcongr, countP_take_sorted R hasym p t ht S]
    simp

/-- Membership in the first S elements of a list sorted by an asymmetric
relation R, phrased through the number of strict predecessors. -/
theorem mem_take_sorted [DecidableEq α] (R : α → α → Prop) [DecidableRel R]
    (hasym : ∀ a b, R a b → ¬R b a) (s : List α) (hp : s.Pairwise R)
    (S : ℕ) (x : α) (hx : x ∈ s) :
    x ∈ s.take S ↔ s.countP (fun y => decide (R y x)) < S := by
  have h := countP_take_sorted R hasym (fun e => decide (e = x)) s hp S
  constructor
  · intro hmem
    have h1 : 0 < (s.take S).countP (fun e => decide (e = x)) :=
      List.countP_pos_iff.mpr ⟨x, hmem, by simp⟩
    rw [h] at h1
    rcases List.countP_pos_iff.mp h1 with ⟨a, _, ha⟩
    simp only [Bool.and_eq_true, decide_eq_true_eq] at ha
    rcases ha with ⟨rfl, h2⟩
    exact h2
  · intro hc
    have h1 : 0 < s.countP
        (fun e => decide (e = x) && decide (s.countP (fun y => decide (R y e)) < S)) :=
      List.countP_pos_iff.mpr ⟨x, hx, by simp [hc]⟩
    rw [← h] at h1
    rcases List.countP_pos_iff.mp h1 with ⟨a, ha, hax⟩
    simp only [decide_eq_true_eq] at hax
    subst hax
    exact ha

/-- A row of the vote table as it reaches dhondt after sanitize: party name
and non-negative integer vote count. -/
structure Row where
  partido : String
  votos : ℕ
deriving DecidableEq

/-- One row of the quotient table built inside dhondt: originating row index
idx, party name, divisor in 1..seats, and the exact quotient votos/divisor. -/
structure QEntry where
  idx : ℕ
  partido : String
  divisor : ℕ
  cociente : ℚ
deriving DecidableEq

/-- Position of a quotient entry in the generation order of dhondt (rows in
input order, divisors 1..seats inside a row); this is the DataFrame position
that the stable descending sort of sort_values falls back to on ties. -/
def entryPos (seats : ℕ) (e : QEntry) : ℕ := e.idx * seats + (e.divisor - 1)

/-- Ascending comparison modelling sort_values on the Cociente column:
lexicographic on (quotient value ascending, generation position
descending).  Reversing a sort by this total key yields the stable
descending order of nargsort, which keeps equal quotients in their
original generation order. -/
def ascLe (seats : ℕ) (e f : QEntry) : Bool :=
  decide (e.cociente < f.cociente ∨
    (e.cociente = f.cociente ∧ entryPos seats f ≤ entryPos seats e))

theorem ascLe_trans (seats : ℕ) :
    ∀ a b c, ascLe seats a b → ascLe seats b c → ascLe seats a c := by
  intro a b c hab hbc
  simp only [ascLe, decide_eq_true_eq] at hab hbc ⊢
  rcases hab with h | ⟨h1, h2⟩ <;> rcases hbc with h3 | ⟨h3, h4⟩
  · exact Or.inl (h.trans h3)
  · exact Or.inl (h3 ▸ h)
  · exact Or.inl (h1 ▸ h3)
  · exact Or.inr ⟨h1.trans h3, h4.trans h2⟩

theorem ascLe_total (seats : ℕ) :
    ∀ a b, ascLe seats a b ∨ ascLe seats b a := by
  intro a b
  simp only [ascLe, decide_eq_true_eq]
  rcases lt_trichotomy a.cociente b.cociente with h | h | h
  · exact Or.inl (Or.inl h)
  · rcases Nat.le_total (entryPos seats a) (entryPos seats b) with h2 | h2
    · exact Or.inr (Or.inr ⟨h.symm, h2⟩)
    · exact Or.inl (Or.inr ⟨h, h2⟩)
  · exact Or.inr (Or.inl h)

/-- Strict precedence in the descending quotient table of dhondt: strictly
larger quotient, or equal quotient and strictly earlier generation
position (the stable descending sort of nargsort keeps equal quotients in
input order). -/
def descR (seats : ℕ) (e f : QEntry) : Prop :=
  f.cociente < e.cociente ∨
    (e.cociente = f.cociente ∧ entryPos seats e < entryPos seats f)

instance (seats : ℕ) : DecidableRel (descR seats) := by
  intro e f
  unfold descR
  infer_instance

theorem descR_asymm (seats : ℕ) :
    ∀ a b, descR seats a b → ¬descR seats b a := by
  intro a b hab hba
  rcases hab with h | ⟨h1, h2⟩ <;> rcases hba with h3 | ⟨h3, h4⟩
  · exact lt_asymm h h3
  · exact absurd h3.symm (ne_of_gt h)
  · rw [h1] at h3
    exact lt_irrefl _ h3
  · omega

/-- The quotient rows generated by dhondt: for each input row in order (the
accumulator i carries the positional index of the first row) and each
divisor d+1 with d in range seats, an entry holding the exact quotient
votos / (d+1), exactly as the nested iterrows loop of the script builds its
list of dicts. -/
def dhondtEntries (seats : ℕ) : List Row → ℕ → List QEntry
  | [], _ => []
  | r :: rest, i =>
      ((List.range seats).map fun d =>
        ⟨i, r.partido, d + 1, (r.votos : ℚ) / (d + 1)⟩) ++
        dhondtEntries seats rest (i + 1)

/-- Kernel-evaluable form of dhondtEntries: identical except each quotient
is built with mkRat instead of field division (rational division does not
reduce inside the kernel, mkRat does); proved equal below. -/
def dhondtEntriesK (seats : ℕ) : List Row → ℕ → List QEntry
  | [], _ => []
  | r :: rest, i =>
      ((List.range seats).map fun d =>
        ⟨i, r.partido, d + 1, mkRat r.votos (d + 1)⟩) ++
        dhondtEntriesK seats rest (i + 1)

theorem dhondtEntries_eq_K (seats : ℕ) :
    ∀ (rows : List Row) (i : ℕ),
      dhondtEntries seats rows i = dhondtEntriesK seats rows i
  | [], _ => rfl
  | r :: rest, i => by
    rw [dhondtEntries, dhondtEntriesK, dhondtEntries_eq_K seats rest (i + 1)]
    congr 1
    apply List.map_congr_left
    intro d _
    congr 1
    rw [Rat.mkRat_eq_div]
    push_cast
    rfl

/-- The quotient table sorted by Cociente descending: sort_values with
ascending=False, a stable descending sort that keeps equal quotients in
generation order. -/
def dhondtSorted (rows : List Row) (seats : ℕ) : List QEntry :=
  sortValuesDesc (ascLe seats) (dhondtEntries seats rows 0)

/-- Kernel-evaluable twin of dhondtSorted. -/
def dhondtSortedK (rows : List Row) (seats : ℕ) : List QEntry :=
  sortValuesDesc (ascLe seats) (dhondtEntriesK seats rows 0)

theorem dhondtSorted_eq_K (rows : List Row) (seats : ℕ) :
    dhondtSorted rows seats = dhondtSortedK rows seats := by
  unfold dhondtSorted dhondtSortedK
  rw [dhondtEntries_eq_K]

/-- The dhondt function of the script.  With an empty table or non-positive
seats it returns the empty allocation Series and the empty quotient table.
Otherwise it generates all quotient entries, sorts them descending, assigns
Rank = sorted position + 1 and the win flag Rank ≤ seats, and accumulates
one seat per winning entry onto its originating row: the allocation Series
over the positional row index becomes the list of per-row win counts, and
the table pairs each sorted entry with its rank and flag. -/
def dhondt (rows : List Row) (seats : ℤ) : List ℕ × List (QEntry × ℕ × Bool) :=
  if rows = [] ∨ seats ≤ 0 then ([], [])
  else
    let S := seats.toNat
    let q := dhondtSorted rows S
    ((List.range rows.length).map fun r => (q.take S).countP fun e => e.idx == r,
     q.enum.map fun p => (p.2, p.1 + 1, decide (p.1 + 1 ≤ S)))

/-- Kernel-evaluable twin of dhondt. -/
def dhondtK (rows : List Row) (seats : ℤ) : List ℕ × List (QEntry × ℕ × Bool) :=
  if rows = [] ∨ seats ≤ 0 then ([], [])
  else
    let S := seats.toNat
    let q := dhondtSortedK rows S
    ((List.range rows.length).map fun r => (q.take S).countP fun e => e.idx == r,
     q.enum.map fun p => (p.2, p.1 + 1, decide (p.1 + 1 ≤ S)))

theorem dhondt_eq_K (rows : List Row) (seats : ℤ) :
    dhondt rows seats = dhondtK rows seats := by
  unfold dhondt dhondtK
  simp only [dhondtSorted_eq_K]

/-- Seats awarded to row r by dhondt: the allocation value at index r, with
0 when the index is absent (the empty-result case allocates to no row). -/
def allocTo (rows : List Row) (seats : ℤ) (r : ℕ) : ℕ :=
  ((dhondt rows seats).1).getD r 0

theorem length_dhondtEntries (seats : ℕ) :
    ∀ (rows : List Row) (i : ℕ),
      (dhondtEntries seats rows i).length = rows.length * seats
  | [], _ => by simp [dhondtEntries]
  | r :: rest, i => by
    rw [dhondtEntries]
    simp [length_dhondtEntries seats rest (i + 1), Nat.succ_mul, Nat.add_comm]

theorem dhondtEntries_append (seats : ℕ) :
    ∀ (u w : List Row) (i : ℕ),
      dhondtEntries seats (u ++ w) i =
        dhondtEntries seats u i ++ dhondtEntries seats w (i + u.length)
  | [], w, i => by simp [dhondtEntries]
  | r :: rest, w, i => by
    rw [List.cons_append, dhondtEntries, dhondtEntries,
      dhondtEntries_append seats rest w (i + 1), List.append_assoc]
    congr 3
    simp
    omega

theorem mem_dhondtEntries (seats : ℕ) :
    ∀ (rows : List Row) (i : ℕ) (e : QEntry), e ∈ dhondtEntries seats rows i →
      i ≤ e.idx ∧ e.idx < i + rows.length ∧ 1 ≤ e.divisor ∧ e.divisor ≤ seats
  | [], i, e => by simp [dhondtEntries]
  | r :: rest, i, e => by
    intro h
    rw [dhondtEntries] at h
    rcases List.mem_append.mp h with h | h
    · rcases List.mem_map.mp h with ⟨d, hd, rfl⟩
      simp only [List.mem_range] at hd
      simp only [List.length_cons]
      omega
    · have h2 := mem_dhondtEntries seats rest (i + 1) e h
      simp only [List.length_cons]
      omega

theorem pairwise_posNe (seats : ℕ) :
    ∀ (rows : List Row) (i : ℕ),
      (dhondtEntries seats rows i).Pairwise
        (fun e f => entryPos seats e ≠ entryPos seats f)
  | [], _ => by simp [dhondtEntries]
  | r :: rest, i => by
    rw [dhondtEntries, List.pairwise_append]
    refine ⟨?_, pairwise_posNe seats rest (i + 1), ?_⟩
    · rw [List.pairwise_map]
      refine (List.pairwise_lt_range seats).imp ?_
      intro a b hab
      simp only [entryPos]
      omega
    · intro a ha b hb
      rcases List.mem_map.mp ha with ⟨d, hd, rfl⟩
      have hb2 := mem_dhondtEntries seats rest (i + 1) b hb
      simp only [List.mem_range] at hd
      have h1 : (i + 1) * seats ≤ b.idx * seats :=
        Nat.mul_le_mul_right seats (by omega)
      have h2 : b.idx * seats ≤ entryPos seats b := Nat.le_add_right _ _
      simp only [entryPos]
      have h3 : i * seats + (d + 1 - 1) < (i + 1) * seats := by
        rw [Nat.succ_mul]
        omega
      omega

theorem perm_dhondtSorted (rows : List Row) (seats : ℕ) :
    (dhondtSorted rows seats).Perm (dhondtEntries seats rows 0) :=
  perm_sortValuesDesc _ _

theorem length_dhondtSorted (rows : List Row) (seats : ℕ) :
    (dhondtSorted rows seats).length = rows.length * seats := by
  rw [(perm_dhondtSorted rows seats).length_eq, length_dhondtEntries]

theorem pairwise_descR_dhondtSorted (rows : List Row) (seats : ℕ) :
    (dhondtSorted rows seats).Pairwise (descR seats) := by
  have h1 := pairwise_sortValuesDesc (ascLe_trans seats) (ascLe_total seats)
    (dhondtEntries seats rows 0)
  have h2 : (dhondtSorted rows seats).Pairwise
      (fun e f => entryPos seats e ≠ entryPos seats f) :=
    ((perm_dhondtSorted rows seats).pairwise_iff
      (fun hxy => Ne.symm hxy)).mpr (pairwise_posNe seats rows 0)
  refine (h1.and h2).imp ?_
  intro a b hab
  rcases hab with ⟨hle, hne⟩
  simp only [ascLe, decide_eq_true_eq] at hle
  rcases hle with h | ⟨h4, h5⟩
  · exact Or.inl h
  · exact Or.inr ⟨h4.symm, by omega⟩

/-- Round half to even of a rational to an integer, modelling numpy
rounding applied to the exact value: compare twice the fractional part
(as the integer 2*(num - floor*den) against den) with 1 and, at an exact
half, pick the even neighbour.  Only integer operations on num and den are
used so that the function evaluates inside the kernel. -/
def roundHalfEven (q : ℚ) : ℤ :=
  if 2 * (q.num - ⌊q⌋ * q.den) < (q.den : ℤ) then ⌊q⌋
  else if (q.den : ℤ) < 2 * (q.num - ⌊q⌋ * q.den) then ⌊q⌋ + 1
  else if ⌊q⌋ % 2 = 0 then ⌊q⌋ else ⌊q⌋ + 1

theorem sub_floor_mul_den (q : ℚ) :
    (q - (⌊q⌋ : ℚ)) * (q.den : ℚ) = ((q.num - ⌊q⌋ * q.den : ℤ) : ℚ) := by
  have hden : (0 : ℚ) < (q.den : ℚ) := by exact_mod_cast q.den_pos
  have hnum : (q.num : ℚ) = q * (q.den : ℚ) :=
    (div_eq_iff (ne_of_gt hden)).mp (Rat.num_div_den q)
  push_cast
  rw [sub_mul, ← hnum]

/-- The rounded value is never more than one half away from the argument. -/
theorem abs_roundHalfEven_sub_le (q : ℚ) : |(roundHalfEven q : ℚ) - q| ≤ 1 / 2 := by
  have hden : (0 : ℚ) < (q.den : ℚ) := by exact_mod_cast q.den_pos
  have hfl : (⌊q⌋ : ℚ) ≤ q := Int.floor_le q
  have hfl2 : q < ⌊q⌋ + 1 := Int.lt_floor_add_one q
  have hkey := sub_floor_mul_den q
  unfold roundHalfEven
  split_ifs with h1 h2 h3
  · have hc : ((2 * (q.num - ⌊q⌋ * q.den) : ℤ) : ℚ) < ((q.den : ℤ) : ℚ) :=
      Int.cast_lt.mpr h1
    push_cast at hc
    have hstep : 2 * (q - (⌊q⌋ : ℚ)) < 1 := by
      have hmul : 2 * (q - (⌊q⌋ : ℚ)) * (q.den : ℚ) < 1 * (q.den : ℚ) := by
        push_cast at hkey
        nlinarith [hkey]
      exact lt_of_mul_lt_mul_right hmul (le_of_lt hden)
    rw [abs_le]
    constructor <;> linarith
  · have hc : ((q.den : ℤ) : ℚ) < ((2 * (q.num - ⌊q⌋ * q.den) : ℤ) : ℚ) :=
      Int.cast_lt.mpr h2
    push_cast at hc
    have hstep : 1 < 2 * (q - (⌊q⌋ : ℚ)) := by
      have hmul : 1 * (q.den : ℚ) < 2 * (q - (⌊q⌋ : ℚ)) * (q.den : ℚ) := by
        push_cast at hkey
        nlinarith [hkey]
      exact lt_of_mul_lt_mul_right hmul (le_of_lt hden)
    rw [abs_le]
    push_cast
    constructor <;> linarith
  all_goals {
    have heq : (2 * (q.num - ⌊q⌋ * q.den) : ℤ) = (q.den : ℤ) := le_antisymm (not_lt.mp h2) (not_lt.mp h1)
    have hc : ((2 * (q.num - ⌊q⌋ * q.den) : ℤ) : ℚ) = ((q.den : ℤ) : ℚ) := by
      exact_mod_cast heq
    push_cast at hc
    have hstep : 2 * (q - (⌊q⌋ : ℚ)) = 1 := by
      have hmul : 2 * (q - (⌊q⌋ : ℚ)) * (q.den : ℚ) = 1 * (q.den : ℚ) := by
        push_cast at hkey
        nlinarith [hkey]
      exact mul_right_cancel₀ (ne_of_gt hden) hmul
    rw [abs_le]
    push_cast
    constructor <;> linarith
  }

theorem roundHalfEven_nonneg {q : ℚ} (h : 0 ≤ q) : 0 ≤ roundHalfEven q := by
  have hfl : (0 : ℤ) ≤ ⌊q⌋ := Int.floor_nonneg.mpr h
  unfold roundHalfEven
  split_ifs <;> omega

/-- Rounding to 2 decimals (pandas round(2)): round half to even at the
second decimal of the exact value. -/
def round2 (q : ℚ) : ℚ := (roundHalfEven (q * 100) : ℚ) / 100

/-- Value of a pandas float column cell: a number, NaN, or infinity (the
latter arises from x/0 with x positive). -/
inductive PFloat where
  | nan : PFloat
  | inf : PFloat
  | num : ℚ → PFloat
deriving DecidableEq

/-- Pandas division of a vote count by the possibly zero total: 0/0 is NaN,
v/0 with v positive is +infinity, otherwise exact division. -/
def pdivTotal (v total : ℕ) : PFloat :=
  if total = 0 then (if v = 0 then PFloat.nan else PFloat.inf)
  else PFloat.num ((v : ℚ) / total)

/-- Multiplication by 100.0 lifted to the float model. -/
def pmul100 : PFloat → PFloat
  | PFloat.nan => PFloat.nan
  | PFloat.inf => PFloat.inf
  | PFloat.num q => PFloat.num (q * 100)

/-- fillna(0): replaces NaN by 0 and leaves everything else. -/
def pfillna0 : PFloat → PFloat
  | PFloat.nan => PFloat.num 0
  | x => x

/-- round(2) lifted to the float model; NaN and infinity pass through. -/
def pround2 : PFloat → PFloat
  | PFloat.num q => PFloat.num (round2 q)
  | x => x

/-- The percentage column computed by the page:
(Votos / total_votes * 100.0).fillna(0).round(2) with total_votes the sum
of the Votos column. -/
def pctColumn (votes : List ℕ) : List PFloat :=
  votes.map fun v => pround2 (pfillna0 (pmul100 (pdivTotal v votes.sum)))

/-- A raw Votos cell before sanitize: either a numeric value or something
non-numeric, which to_numeric with errors="coerce" turns into NaN. -/
inductive RawVote where
  | valid : ℚ → RawVote
  | invalid : RawVote

/-- to_numeric(errors="coerce").fillna(0): non-numeric cells become 0. -/
def coerceFill0 : RawVote → ℚ
  | RawVote.valid q => q
  | RawVote.invalid => 0

/-- The Votos pipeline of sanitize: numeric coercion with NaN filled by 0,
clip(lower=0), then numpy rounding to integer (astype(int) of an integral
float is the identity). -/
def sanitizeVotos (c : RawVote) : ℤ :=
  roundHalfEven (max (coerceFill0 c) 0)

/-- One cell of the integer quotient matrix of quotient_matrix_top4: row
position, divisor, and the value after round(0) to int. -/
structure MCell where
  idx : ℕ
  divisor : ℕ
  val : ℤ
deriving DecidableEq

/-- The divisors displayed by quotient_matrix_top4. -/
def divisores : List ℕ := [1, 2, 3, 4]

/-- The integer matrix m_int of quotient_matrix_top4 listed in row-major
(stacked) order: for each row in input order and each divisor d in
divisores, the rounded integer quotient votos/d.  Rows are keyed by
position, faithful to the script whenever party names are distinct (the
script keys the frame by party name). -/
def matrixCells : List Row → ℕ → List MCell
  | [], _ => []
  | r :: rest, i =>
      (divisores.map fun d => ⟨i, d, roundHalfEven ((r.votos : ℚ) / d)⟩) ++
        matrixCells rest (i + 1)

/-- Kernel-evaluable twin of matrixCells (mkRat instead of division). -/
def matrixCellsK : List Row → ℕ → List MCell
  | [], _ => []
  | r :: rest, i =>
      (divisores.map fun d => ⟨i, d, roundHalfEven (mkRat r.votos d)⟩) ++
        matrixCellsK rest (i + 1)

theorem matrixCells_eq_K :
    ∀ (rows : List Row) (i : ℕ), matrixCells rows i = matrixCellsK rows i
  | [], _ => rfl
  | r :: rest, i => by
    rw [matrixCells, matrixCellsK, matrixCells_eq_K rest (i + 1)]
    congr 1
    apply List.map_congr_left
    intro d _
    congr 2
    rw [Rat.mkRat_eq_div]
    push_cast
    rfl

/-- Stacked position of a matrix cell: stack() emits cells row-major. -/
def cellPos (c : MCell) : ℕ := c.idx * 4 + (c.divisor - 1)

/-- Ascending comparison for the stacked Series sort inside
quotient_matrix_top4: lexicographic on (cell value ascending, stacked
position descending), so that the reversed result is the stable descending
order of nargsort, which keeps equal values in stacked order. -/
def cellAscLe (c c2 : MCell) : Bool :=
  decide (c.val < c2.val ∨ (c.val = c2.val ∧ cellPos c2 ≤ cellPos c))

theorem cellAscLe_trans :
    ∀ a b c, cellAscLe a b → cellAscLe b c → cellAscLe a c := by
  intro a b c hab hbc
  simp only [cellAscLe, decide_eq_true_eq] at hab hbc ⊢
  rcases hab with h | ⟨h1, h2⟩ <;> rcases hbc with h3 | ⟨h3, h4⟩
  · exact Or.inl (h.trans h3)
  · exact Or.inl (h3 ▸ h)
  · exact Or.inl (h1 ▸ h3)
  · exact Or.inr ⟨h1.trans h3, h4.trans h2⟩

theorem cellAscLe_total :
    ∀ a b, cellAscLe a b ∨ cellAscLe b a := by
  intro a b
  simp only [cellAscLe, decide_eq_true_eq]
  rcases lt_trichotomy a.val b.val with h | h | h
  · exact Or.inl (Or.inl h)
  · rcases Nat.le_total (cellPos a) (cellPos b) with h2 | h2
    · exact Or.inr (Or.inr ⟨h.symm, h2⟩)
    · exact Or.inl (Or.inr ⟨h, h2⟩)
  · exact Or.inr (Or.inl h)

/-- Strict precedence in the descending order of the stacked cell Series:
strictly larger rounded value, or equal value and earlier stacked position
(the stable descending sort keeps equal values in stacked order). -/
def cellR (c c2 : MCell) : Prop :=
  c2.val < c.val ∨ (c.val = c2.val ∧ cellPos c < cellPos c2)

instance : DecidableRel cellR := by
  intro c c2
  unfold cellR
  infer_instance

theorem cellR_asymm : ∀ a b, cellR a b → ¬cellR b a := by
  intro a b hab hba
  rcases hab with h | ⟨h1, h2⟩ <;> rcases hba with h3 | ⟨h3, h4⟩
  · exact lt_asymm h h3
  · exact absurd h3.symm (ne_of_gt h)
  · rw [h1] at h3
    exact lt_irrefl _ h3
  · omega

/-- The (row position, divisor) pairs of the four cells that
quotient_matrix_top4 highlights: stack, sort descending, head(4). -/
def top4Cells (rows : List Row) : List (ℕ × ℕ) :=
  ((sortValuesDesc cellAscLe (matrixCells rows 0)).take 4).map
    fun c => (c.idx, c.divisor)

/-- Kernel-evaluable twin of top4Cells. -/
def top4CellsK (rows : List Row) : List (ℕ × ℕ) :=
  ((sortValuesDesc cellAscLe (matrixCellsK rows 0)).take 4).map
    fun c => (c.idx, c.divisor)

theorem top4Cells_eq_K (rows : List Row) : top4Cells rows = top4CellsK rows := by
  unfold top4Cells top4CellsK
  rw [matrixCells_eq_K]

theorem list_range_sum_eq (n : ℕ) (f : ℕ → ℕ) :
    ((List.range n).map f).sum = ∑ r in Finset.range n, f r := by
  rfl

theorem sum_range_countP_idx (n : ℕ) :
    ∀ l : List QEntry, (∀ e ∈ l, e.idx < n) →
      (((List.range n).map fun r => l.countP fun e => e.idx == r)).sum = l.length := by
  intro l
  induction l with
  | nil => intro _; simp
  | cons x t ih =>
    intro hb
    have hbt : ∀ e ∈ t, e.idx < n := fun e he => hb e (List.mem_cons_of_mem x he)
    have hxn : x.idx < n := hb x (List.mem_cons_self x t)
    have h1 : ∀ r : ℕ, (x :: t).countP (fun e => e.idx == r) =
        t.countP (fun e => e.idx == r) + (if x.idx = r then 1 else 0) := by
      intro r
      rw [List.countP_cons]
      simp [beq_iff_eq]
    calc ((List.range n).map fun r => (x :: t).countP fun e => e.idx == r).sum
        = ((List.range n).map fun r =>
            t.countP (fun e => e.idx == r) + (if x.idx = r then 1 else 0)).sum := by
          congr 1
          apply List.map_congr_left
          intro r _
          exact h1 r
      _ = ∑ r in Finset.range n,
            (t.countP (fun e => e.idx == r) + if x.idx = r then 1 else 0) :=
          list_range_sum_eq n _
      _ = (∑ r in Finset.range n, t.countP (fun e => e.idx == r)) +
            ∑ r in Finset.range n, (if x.idx = r then 1 else 0) :=
          Finset.sum_add_distrib
      _ = t.length + 1 := by
          rw [← list_range_sum_eq n, ih hbt, Finset.sum_ite_eq (Finset.range n) x.idx fun _ => 1]
          simp [hxn]
      _ = (x :: t).length := by simp

theorem dhondt_fst (rows : List Row) (s : ℤ) (h1 : rows ≠ []) (h2 : 0 < s) :
    (dhondt rows s).1 = (List.range rows.length).map
      fun j => ((dhondtSorted rows s.toNat).take s.toNat).countP fun e => e.idx == j := by
  have hcond : ¬(rows = [] ∨ s ≤ 0) := by
    push_neg
    exact ⟨h1, by omega⟩
  simp only [dhondt, if_neg hcond]

theorem dhondt_snd (rows : List Row) (s : ℤ) (h1 : rows ≠ []) (h2 : 0 < s) :
    (dhondt rows s).2 = (dhondtSorted rows s.toNat).enum.map
      fun p => (p.2, p.1 + 1, decide (p.1 + 1 ≤ s.toNat)) := by
  have hcond : ¬(rows = [] ∨ s ≤ 0) := by
    push_neg
    exact ⟨h1, by omega⟩
  simp only [dhondt, if_neg hcond]

theorem allocTo_eq (rows : List Row) (s : ℤ) (r : ℕ) (h1 : rows ≠ []) (h2 : 0 < s)
    (hr : r < rows.length) :
    allocTo rows s r =
      ((dhondtSorted rows s.toNat).take s.toNat).countP fun e => e.idx == r := by
  unfold allocTo
  rw [dhondt_fst rows s h1 h2, List.getD_eq_getElem _ _ (by simpa using hr),
    List.getElem_map, List.getElem_range]

/-- Scenario A input of the spec: three parties with 100, 50 and 10 votes. -/
def rowsA : List Row := [⟨"A", 100⟩, ⟨"B", 50⟩, ⟨"C", 10⟩]

/-- Default entry used only as the out-of-range fallback of getD. -/
def defaultQEntry : QEntry := ⟨0, "", 0, 0⟩

/-- C1: for every ordered vote table with seats > 0 and at least one
positive vote count, the per-row seat counts returned by dhondt sum to
exactly the seat count. -/
theorem dhondt_sum_seats (rows : List Row) (s : ℤ) (h1 : rows ≠ [])
    (h2 : 0 < s) (h3 : ∃ r ∈ rows, 0 < r.votos) :
    ((dhondt rows s).1).sum = s.toNat := by
  rw [dhondt_fst rows s h1 h2]
  have hmem : ∀ e ∈ (dhondtSorted rows s.toNat).take s.toNat, e.idx < rows.length := by
    intro e he
    have h4 : e ∈ dhondtSorted rows s.toNat := List.mem_of_mem_take he
    have h5 : e ∈ dhondtEntries s.toNat rows 0 :=
      (perm_dhondtSorted rows s.toNat).mem_iff.mp h4
    have h6 := mem_dhondtEntries s.toNat rows 0 e h5
    omega
  rw [sum_range_countP_idx rows.length _ hmem, List.length_take, length_dhondtSorted]
  have hlen : 1 ≤ rows.length := List.length_pos.mpr h1
  have hmul : s.toNat ≤ rows.length * s.toNat := Nat.le_mul_of_pos_left s.toNat (by omega)
  omega

theorem dhondt_sum_seats_witness : ((dhondt rowsA 3).1).sum = (3 : ℤ).toNat :=
  dhondt_sum_seats rowsA 3 (by decide) (by decide)
    ⟨⟨"A", 100⟩, by decide, by decide⟩

/-- C3: with an empty party table or non-positive seats, dhondt returns the
defined empty result: an allocation Series holding no row (hence with every
held value zero) and an empty quotient table; being a total function it
raises nothing. -/
theorem dhondt_empty_result (rows : List Row) (s : ℤ) (h : rows = [] ∨ s ≤ 0) :
    (dhondt rows s).1 = [] ∧ (∀ x ∈ (dhondt rows s).1, x = 0) ∧
      (dhondt rows s).2 = [] := by
  rw [dhondt, if_pos h]
  exact ⟨rfl, by simp, rfl⟩

theorem dhondt_empty_result_witness :
    (dhondt [⟨"A", 5⟩] 0).1 = [] ∧ (∀ x ∈ (dhondt [⟨"A", 5⟩] 0).1, x = 0) ∧
      (dhondt [⟨"A", 5⟩] 0).2 = [] :=
  dhondt_empty_result [⟨"A", 5⟩] 0 (Or.inr (by decide))

/-- C6: dhondt is deterministic; identical party tables and seat counts
give identical allocations and identical quotient-table orderings,
including identical tie resolution (the embedding is a pure function of its
two arguments, mirroring the script, which holds no state and sorts
deterministically). -/
theorem dhondt_deterministic (rows rows2 : List Row) (s s2 : ℤ)
    (hrows : rows = rows2) (hs : s = s2) : dhondt rows s = dhondt rows2 s2 := by
  rw [hrows, hs]

theorem dhondt_deterministic_witness : dhondt rowsA 3 = dhondt rowsA 3 :=
  dhondt_deterministic rowsA rowsA 3 3 rfl rfl

/-- C7: on parties A:100, B:50, C:10 with 3 seats, dhondt allocates A:2,
B:1, C:0, and both 50-valued quotients (A with divisor 2 and B with divisor
1) are among the rank ≤ 3 entries of the table. -/
theorem dhondt_scenarioA :
    (dhondt rowsA 3).1 = [2, 1, 0] ∧
    (∃ p ∈ (dhondt rowsA 3).2, p.1 = ⟨0, "A", 2, 50⟩ ∧ p.2.1 ≤ 3) ∧
    (∃ p ∈ (dhondt rowsA 3).2, p.1 = ⟨1, "B", 1, 50⟩ ∧ p.2.1 ≤ 3) := by
  rw [dhondt_eq_K]
  decide

/-- C2: when two entries of the sorted quotient table have equal quotient
values and belong to different rows, the entry of the row appearing
earlier in the input sequence is ranked first, as by a stable sort:
pandas sort_values with ascending=False reverses the key array and the
index before a stable ascending argsort and the indexer after, so the
descending order keeps equal quotients in original input order. -/
theorem dhondt_tiebreak_input_order (rows : List Row) (S k l : ℕ)
    (hk : k < (dhondtSorted rows S).length) (hl : l < (dhondtSorted rows S).length)
    (heq : ((dhondtSorted rows S).getD k defaultQEntry).cociente =
      ((dhondtSorted rows S).getD l defaultQEntry).cociente)
    (hidx : ((dhondtSorted rows S).getD k defaultQEntry).idx <
      ((dhondtSorted rows S).getD l defaultQEntry).idx) :
    k < l := by
  rw [List.getD_eq_getElem _ _ hk, List.getD_eq_getElem _ _ hl] at heq hidx
  have he : (dhondtSorted rows S)[k] ∈ dhondtSorted rows S := List.getElem_mem hk
  have hf : (dhondtSorted rows S)[l] ∈ dhondtSorted rows S := List.getElem_mem hl
  have he2 := mem_dhondtEntries S rows 0 _ ((perm_dhondtSorted rows S).mem_iff.mp he)
  have hf2 := mem_dhondtEntries S rows 0 _ ((perm_dhondtSorted rows S).mem_iff.mp hf)
  have hpos : entryPos S ((dhondtSorted rows S)[k]) <
      entryPos S ((dhondtSorted rows S)[l]) := by
    unfold entryPos
    have h1 : ((dhondtSorted rows S)[k]).idx * S +
        (((dhondtSorted rows S)[k]).divisor - 1) <
        (((dhondtSorted rows S)[k]).idx + 1) * S := by
      rw [Nat.succ_mul]
      omega
    have h2 : (((dhondtSorted rows S)[k]).idx + 1) * S ≤
        ((dhondtSorted rows S)[l]).idx * S :=
      Nat.mul_le_mul_right S (by omega)
    have h3 : ((dhondtSorted rows S)[l]).idx * S ≤
        ((dhondtSorted rows S)[l]).idx * S +
          (((dhondtSorted rows S)[l]).divisor - 1) :=
      Nat.le_add_right _ _
    omega
  have hpw := pairwise_descR_dhondtSorted rows S
  rcases lt_trichotomy k l with h | h | h
  · exact h
  · exfalso
    subst h
    exact lt_irrefl _ hidx
  · exfalso
    have hd := (List.pairwise_iff_getElem.mp hpw) l k hl hk h
    rcases hd with hh | ⟨hh1, hh2⟩
    · rw [heq] at hh
      exact lt_irrefl _ hh
    · omega

theorem dhondt_tiebreak_input_order_witness :
    ((dhondtSorted rowsA 3).getD 1 defaultQEntry).cociente =
      ((dhondtSorted rowsA 3).getD 2 defaultQEntry).cociente ∧
    (1 : ℕ) < 2 :=
  ⟨by rw [dhondtSorted_eq_K]; decide,
   dhondt_tiebreak_input_order rowsA 3 1 2
     (by rw [length_dhondtSorted]; decide) (by rw [length_dhondtSorted]; decide)
     (by rw [dhondtSorted_eq_K]; decide) (by rw [dhondtSorted_eq_K]; decide)⟩

/-- C4: for non-empty input and positive seats, the quotient table returned
by dhondt has exactly rows times seats entries, is a permutation of all
generated (row, divisor) quotient entries sorted descending by quotient,
and each table element carries rank = its 1-based sorted position together
with a win flag that holds exactly when rank ≤ seats. -/
theorem dhondt_table_spec (rows : List Row) (s : ℤ) (h1 : rows ≠ []) (h2 : 0 < s) :
    ((dhondt rows s).2).length = rows.length * s.toNat ∧
    (((dhondt rows s).2).map fun p => p.1).Perm (dhondtEntries s.toNat rows 0) ∧
    (((dhondt rows s).2).map fun p => p.1).Pairwise
      (fun e f => f.cociente ≤ e.cociente) ∧
    ∀ k, ∀ hk : k < ((dhondt rows s).2).length,
      (((dhondt rows s).2)[k]).2.1 = k + 1 ∧
      ((((dhondt rows s).2)[k]).2.2 = true ↔ k + 1 ≤ s.toNat) := by
  rw [dhondt_snd rows s h1 h2]
  have hmap : (((dhondtSorted rows s.toNat).enum.map
      fun p => ((p.2 : QEntry), p.1 + 1, decide (p.1 + 1 ≤ s.toNat))).map fun p => p.1) =
      dhondtSorted rows s.toNat := by
    rw [List.map_map]
    exact List.enum_map_snd _
  refine ⟨?_, ?_, ?_, ?_⟩
  · rw [List.length_map, List.enum_length, length_dhondtSorted]
  · rw [hmap]
    exact perm_dhondtSorted rows s.toNat
  · rw [hmap]
    refine (pairwise_descR_dhondtSorted rows s.toNat).imp ?_
    intro a b hab
    rcases hab with h | ⟨h, _⟩
    · exact le_of_lt h
    · exact le_of_eq h.symm
  · intro k hk
    rw [List.getElem_map, List.getElem_enum]
    exact ⟨rfl, by simp⟩

theorem dhondt_table_spec_witness :
    ((dhondt rowsA 3).2).length = rowsA.length * (3 : ℤ).toNat ∧
    (((dhondt rowsA 3).2).map fun p => p.1).Perm (dhondtEntries (3 : ℤ).toNat rowsA 0) ∧
    (((dhondt rowsA 3).2).map fun p => p.1).Pairwise
      (fun e f => f.cociente ≤ e.cociente) ∧
    ∀ k, ∀ hk : k < ((dhondt rowsA 3).2).length,
      (((dhondt rowsA 3).2)[k]).2.1 = k + 1 ∧
      ((((dhondt rowsA 3).2)[k]).2.2 = true ↔ k + 1 ≤ (3 : ℤ).toNat) :=
  dhondt_table_spec rowsA 3 (by decide) (by decide)

theorem dhondtEntries_decomp (S : ℕ) (pre post : List Row) (nm : String) (w : ℕ) :
    dhondtEntries S (pre ++ (⟨nm, w⟩ : Row) :: post) 0 =
      dhondtEntries S pre 0 ++
      ((List.range S).map fun d =>
        (⟨pre.length, nm, d + 1, (w : ℚ) / (d + 1)⟩ : QEntry)) ++
      dhondtEntries S post (pre.length + 1) := by
  rw [dhondtEntries_append S pre _ 0, dhondtEntries, ← List.append_assoc]
  simp

/-- For a fixed competing entry e, raising the votes of the distinguished
row from v to v2 can only enlarge the set of entries strictly preceding e
in the descending order: each quotient of the distinguished row weakly
grows while its tie-break position is unchanged. -/
theorem countP_descR_mono (S : ℕ) (EP ET : List QEntry) (nm : String) (r : ℕ)
    (v v2 : ℕ) (hv : v ≤ v2) (e : QEntry) :
    (EP ++ ((List.range S).map fun d =>
        (⟨r, nm, d + 1, (v : ℚ) / (d + 1)⟩ : QEntry)) ++ ET).countP
      (fun y => decide (descR S y e)) ≤
    (EP ++ ((List.range S).map fun d =>
        (⟨r, nm, d + 1, (v2 : ℚ) / (d + 1)⟩ : QEntry)) ++ ET).countP
      (fun y => decide (descR S y e)) := by
  rw [List.countP_append, List.countP_append, List.countP_append, List.countP_append]
  have hb : ((List.range S).map fun d =>
      (⟨r, nm, d + 1, (v : ℚ) / (d + 1)⟩ : QEntry)).countP
        (fun y => decide (descR S y e)) ≤
      ((List.range S).map fun d =>
        (⟨r, nm, d + 1, (v2 : ℚ) / (d + 1)⟩ : QEntry)).countP
        (fun y => decide (descR S y e)) := by
    rw [List.countP_map, List.countP_map]
    apply List.countP_mono_left
    intro d _ hd
    simp only [Function.comp, decide_eq_true_eq] at hd ⊢
    unfold descR entryPos at hd ⊢
    dsimp only at hd ⊢
    have hdd : (0 : ℚ) < (d : ℚ) + 1 := by positivity
    have hvv : (v : ℚ) / ((d : ℚ) + 1) ≤ (v2 : ℚ) / ((d : ℚ) + 1) :=
      (div_le_div_iff_of_pos_right hdd).mpr (by exact_mod_cast hv)
    rcases hd with h | ⟨h1, h2⟩
    · exact Or.inl (lt_of_lt_of_le h hvv)
    · rcases lt_or_eq_of_le hvv with h3 | h3
      · rw [h1] at h3
        exact Or.inl h3
      · rw [h3] at h1
        exact Or.inr ⟨h1, h2⟩
  omega

/-- The allocation to the distinguished row plus the number of other-row
entries whose strict-predecessor count is below the seat count is exactly
the seat count. -/
theorem dhondt_alloc_plus_other (pre post : List Row) (nm : String) (w : ℕ)
    (s : ℤ) (hs : 0 < s) :
    allocTo (pre ++ (⟨nm, w⟩ : Row) :: post) s pre.length +
      (dhondtEntries s.toNat pre 0 ++
        ((List.range s.toNat).map fun d =>
          (⟨pre.length, nm, d + 1, (w : ℚ) / (d + 1)⟩ : QEntry)) ++
        dhondtEntries s.toNat post (pre.length + 1)).countP
        (fun e => (!(e.idx == pre.length)) &&
          decide ((dhondtEntries s.toNat pre 0 ++
            ((List.range s.toNat).map fun d =>
              (⟨pre.length, nm, d + 1, (w : ℚ) / (d + 1)⟩ : QEntry)) ++
            dhondtEntries s.toNat post (pre.length + 1)).countP
            (fun y => decide (descR s.toNat y e)) < s.toNat)) = s.toNat := by
  rw [← dhondtEntries_decomp s.toNat pre post nm w]
  have hne : (pre ++ (⟨nm, w⟩ : Row) :: post) ≠ [] := by simp
  have hrlt : pre.length < (pre ++ (⟨nm, w⟩ : Row) :: post).length := by
    rw [List.length_append]
    simp
  rw [allocTo_eq _ s pre.length hne hs hrlt]
  have hperm := perm_dhondtSorted (pre ++ (⟨nm, w⟩ : Row) :: post) s.toNat
  have hpw := pairwise_descR_dhondtSorted (pre ++ (⟨nm, w⟩ : Row) :: post) s.toNat
  have htake : ((dhondtSorted (pre ++ (⟨nm, w⟩ : Row) :: post) s.toNat).take s.toNat).length
      = s.toNat := by
    rw [List.length_take, length_dhondtSorted]
    have h1 : 1 ≤ (pre ++ (⟨nm, w⟩ : Row) :: post).length := List.length_pos.mpr hne
    have h2 : s.toNat ≤ (pre ++ (⟨nm, w⟩ : Row) :: post).length * s.toNat :=
      Nat.le_mul_of_pos_left s.toNat (by omega)
    omega
  have hcomp := countP_add_countP_neg (fun e => e.idx == pre.length)
    ((dhondtSorted (pre ++ (⟨nm, w⟩ : Row) :: post) s.toNat).take s.toNat)
  have hother : ((dhondtSorted (pre ++ (⟨nm, w⟩ : Row) :: post) s.toNat).take
      s.toNat).countP (fun e => !(e.idx == pre.length)) =
      (dhondtEntries s.toNat (pre ++ (⟨nm, w⟩ : Row) :: post) 0).countP
        (fun e => (!(e.idx == pre.length)) &&
          decide ((dhondtEntries s.toNat (pre ++ (⟨nm, w⟩ : Row) :: post) 0).countP
            (fun y => decide (descR s.toNat y e)) < s.toNat)) := by
    rw [countP_take_sorted (descR s.toNat) (descR_asymm s.toNat) _ _ hpw s.toNat]
    have hfun : (fun e => (!(e.idx == pre.length)) &&
        decide ((dhondtSorted (pre ++ (⟨nm, w⟩ : Row) :: post) s.toNat).countP
          (fun y => decide (descR s.toNat y e)) < s.toNat)) =
        (fun e => (!(e.idx == pre.length)) &&
          decide ((dhondtEntries s.toNat (pre ++ (⟨nm, w⟩ : Row) :: post) 0).countP
            (fun y => decide (descR s.toNat y e)) < s.toNat)) := by
      funext e
      rw [hperm.countP_eq]
    rw [hfun, hperm.countP_eq]
  omega

/-- C5: monotonicity of the allocator; raising the vote count of one row
while all other rows and the seat count stay fixed never decreases the
number of seats dhondt awards to that row. -/
theorem dhondt_monotone (pre post : List Row) (nm : String) (v v2 : ℕ) (s : ℤ)
    (hv : v ≤ v2) :
    allocTo (pre ++ (⟨nm, v⟩ : Row) :: post) s pre.length ≤
      allocTo (pre ++ (⟨nm, v2⟩ : Row) :: post) s pre.length := by
  by_cases hs : s ≤ 0
  · unfold allocTo dhondt
    rw [if_pos (Or.inr hs), if_pos (Or.inr hs)]
  · push_neg at hs
    have k1 := dhondt_alloc_plus_other pre post nm v s hs
    have k2 := dhondt_alloc_plus_other pre post nm v2 s hs
    have hBmono := countP_descR_mono s.toNat (dhondtEntries s.toNat pre 0)
      (dhondtEntries s.toNat post (pre.length + 1)) nm pre.length v v2 hv
    have hblock : ∀ (u : ℕ),
        (((List.range s.toNat).map fun d =>
          (⟨pre.length, nm, d + 1, (u : ℚ) / (d + 1)⟩ : QEntry))).countP
          (fun e => (!(e.idx == pre.length)) &&
            decide ((dhondtEntries s.toNat pre 0 ++
              ((List.range s.toNat).map fun d =>
                (⟨pre.length, nm, d + 1, (u : ℚ) / (d + 1)⟩ : QEntry)) ++
              dhondtEntries s.toNat post (pre.length + 1)).countP
              (fun y => decide (descR s.toNat y e)) < s.toNat)) = 0 := by
      intro u
      rw [List.countP_eq_zero]
      intro a ha
      rcases List.mem_map.mp ha with ⟨d, _, rfl⟩
      simp
    have hmono : (dhondtEntries s.toNat pre 0 ++
        ((List.range s.toNat).map fun d =>
          (⟨pre.length, nm, d + 1, (v2 : ℚ) / (d + 1)⟩ : QEntry)) ++
        dhondtEntries s.toNat post (pre.length + 1)).countP
        (fun e => (!(e.idx == pre.length)) &&
          decide ((dhondtEntries s.toNat pre 0 ++
            ((List.range s.toNat).map fun d =>
              (⟨pre.length, nm, d + 1, (v2 : ℚ) / (d + 1)⟩ : QEntry)) ++
            dhondtEntries s.toNat post (pre.length + 1)).countP
            (fun y => decide (descR s.toNat y e)) < s.toNat)) ≤
        (dhondtEntries s.toNat pre 0 ++
          ((List.range s.toNat).map fun d =>
            (⟨pre.length, nm, d + 1, (v : ℚ) / (d + 1)⟩ : QEntry)) ++
          dhondtEntries s.toNat post (pre.length + 1)).countP
          (fun e => (!(e.idx == pre.length)) &&
            decide ((dhondtEntries s.toNat pre 0 ++
              ((List.range s.toNat).map fun d =>
                (⟨pre.length, nm, d + 1, (v : ℚ) / (d + 1)⟩ : QEntry)) ++
              dhondtEntries s.toNat post (pre.length + 1)).countP
              (fun y => decide (descR s.toNat y e)) < s.toNat)) := by
      rw [List.countP_append, List.countP_append, List.countP_append, List.countP_append,
        hblock v, hblock v2]
      have hEP : (dhondtEntries s.toNat pre 0).countP
          (fun e => (!(e.idx == pre.length)) &&
            decide ((dhondtEntries s.toNat pre 0 ++
              ((List.range s.toNat).map fun d =>
                (⟨pre.length, nm, d + 1, (v2 : ℚ) / (d + 1)⟩ : QEntry)) ++
              dhondtEntries s.toNat post (pre.length + 1)).countP
              (fun y => decide (descR s.toNat y e)) < s.toNat)) ≤
          (dhondtEntries s.toNat pre 0).countP
          (fun e => (!(e.idx == pre.length)) &&
            decide ((dhondtEntries s.toNat pre 0 ++
              ((List.range s.toNat).map fun d =>
                (⟨pre.length, nm, d + 1, (v : ℚ) / (d + 1)⟩ : QEntry)) ++
              dhondtEntries s.toNat post (pre.length + 1)).countP
              (fun y => decide (descR s.toNat y e)) < s.toNat)) := by
        apply List.countP_mono_left
        intro e _ hpred
        simp only [Bool.and_eq_true, decide_eq_true_eq] at hpred ⊢
        exact ⟨hpred.1, by have := hBmono e; omega⟩
      have hET : (dhondtEntries s.toNat post (pre.length + 1)).countP
          (fun e => (!(e.idx == pre.length)) &&
            decide ((dhondtEntries s.toNat pre 0 ++
              ((List.range s.toNat).map fun d =>
                (⟨pre.length, nm, d + 1, (v2 : ℚ) / (d + 1)⟩ : QEntry)) ++
              dhondtEntries s.toNat post (pre.length + 1)).countP
              (fun y => decide (descR s.toNat y e)) < s.toNat)) ≤
          (dhondtEntries s.toNat post (pre.length + 1)).countP
          (fun e => (!(e.idx == pre.length)) &&
            decide ((dhondtEntries s.toNat pre 0 ++
              ((List.range s.toNat).map fun d =>
                (⟨pre.length, nm, d + 1, (v : ℚ) / (d + 1)⟩ : QEntry)) ++
              dhondtEntries s.toNat post (pre.length + 1)).countP
              (fun y => decide (descR s.toNat y e)) < s.toNat)) := by
        apply List.countP_mono_left
        intro e _ hpred
        simp only [Bool.and_eq_true, decide_eq_true_eq] at hpred ⊢
        exact ⟨hpred.1, by have := hBmono e; omega⟩
      omega
    omega

theorem dhondt_monotone_witness :
    (50 : ℕ) ≤ 100 ∧
      allocTo ([] ++ (⟨"A", 50⟩ : Row) :: [⟨"B", 50⟩]) 3 (List.length ([] : List Row)) ≤
        allocTo ([] ++ (⟨"A", 100⟩ : Row) :: [⟨"B", 50⟩]) 3 (List.length ([] : List Row)) :=
  ⟨by decide, dhondt_monotone [] [⟨"B", 50⟩] "A" 50 100 3 (by decide)⟩

theorem mem_matrixCells_bounds :
    ∀ (rows : List Row) (i : ℕ) (c : MCell), c ∈ matrixCells rows i →
      i ≤ c.idx ∧ c.idx < i + rows.length ∧ c.divisor ∈ divisores
  | [], i, c => by simp [matrixCells]
  | r :: rest, i, c => by
    intro h
    rw [matrixCells] at h
    rcases List.mem_append.mp h with h | h
    · rcases List.mem_map.mp h with ⟨d, hd, rfl⟩
      simp only [List.length_cons]
      exact ⟨le_refl _, by omega, hd⟩
    · have h2 := mem_matrixCells_bounds rest (i + 1) c h
      simp only [List.length_cons]
      exact ⟨by omega, by omega, h2.2.2⟩

theorem mem_matrixCells_val :
    ∀ (rows : List Row) (i : ℕ) (c : MCell),
      c ∈ matrixCells rows i ↔ ∃ j, j < rows.length ∧ ∃ d ∈ divisores,
        c = ⟨i + j, d, roundHalfEven (((rows.getD j ⟨"", 0⟩).votos : ℚ) / d)⟩
  | [], i, c => by simp [matrixCells]
  | r :: rest, i, c => by
    rw [matrixCells]
    constructor
    · intro h
      rcases List.mem_append.mp h with h | h
      · rcases List.mem_map.mp h with ⟨d, hd, rfl⟩
        exact ⟨0, by simp, d, hd, by simp⟩
      · rcases (mem_matrixCells_val rest (i + 1) c).mp h with ⟨j, hj, d, hd, rfl⟩
        refine ⟨j + 1, by simp only [List.length_cons]; omega, d, hd, ?_⟩
        rw [List.getD_cons_succ]
        congr 1
        omega
    · rintro ⟨j, hj, d, hd, rfl⟩
      cases j with
      | zero => exact List.mem_append.mpr (Or.inl (List.mem_map.mpr ⟨d, hd, by simp⟩))
      | succ j =>
        refine List.mem_append.mpr (Or.inr ?_)
        refine (mem_matrixCells_val rest (i + 1) _).mpr
          ⟨j, by simp only [List.length_cons] at hj; omega, d, hd, ?_⟩
        rw [List.getD_cons_succ]
        congr 1
        omega

theorem matrixCells_inj (rows : List Row) (c c2 : MCell)
    (hc : c ∈ matrixCells rows 0) (hc2 : c2 ∈ matrixCells rows 0)
    (hidx : c.idx = c2.idx) (hdiv : c.divisor = c2.divisor) : c = c2 := by
  rcases (mem_matrixCells_val rows 0 c).mp hc with ⟨j, hj, d, hd, rfl⟩
  rcases (mem_matrixCells_val rows 0 c2).mp hc2 with ⟨j2, hj2, d2, hd2, rfl⟩
  simp only at hidx hdiv
  have hjj : j = j2 := by omega
  subst hjj
  subst hdiv
  rfl

theorem pairwise_cellPosNe :
    ∀ (rows : List Row) (i : ℕ),
      (matrixCells rows i).Pairwise (fun c c2 => cellPos c ≠ cellPos c2)
  | [], _ => by simp [matrixCells]
  | r :: rest, i => by
    rw [matrixCells, List.pairwise_append]
    refine ⟨?_, pairwise_cellPosNe rest (i + 1), ?_⟩
    · rw [List.pairwise_map]
      have hdiv : divisores.Pairwise (fun a b => 1 ≤ a ∧ a < b) := by decide
      refine hdiv.imp ?_
      intro a b hab
      simp only [cellPos]
      omega
    · intro a ha b hb
      rcases List.mem_map.mp ha with ⟨d, hd, rfl⟩
      have hb2 := mem_matrixCells_bounds rest (i + 1) b hb
      have hbd := hb2.2.2
      simp only [cellPos]
      have h1 : (i + 1) * 4 ≤ b.idx * 4 := Nat.mul_le_mul_right 4 (by omega)
      have h2 : b.idx * 4 ≤ b.idx * 4 + (b.divisor - 1) := Nat.le_add_right _ _
      simp only [divisores, List.mem_cons, List.not_mem_nil, or_false] at hd
      rcases hd with rfl | rfl | rfl | rfl <;> omega

theorem pairwise_cellR_sorted (rows : List Row) :
    (sortValuesDesc cellAscLe (matrixCells rows 0)).Pairwise cellR := by
  have h1 := pairwise_sortValuesDesc cellAscLe_trans cellAscLe_total (matrixCells rows 0)
  have h2 : (sortValuesDesc cellAscLe (matrixCells rows 0)).Pairwise
      (fun c c2 => cellPos c ≠ cellPos c2) :=
    ((perm_sortValuesDesc cellAscLe (matrixCells rows 0)).pairwise_iff
      (fun h => Ne.symm h)).mpr (pairwise_cellPosNe rows 0)
  refine (h1.and h2).imp ?_
  intro a b hab
  rcases hab with ⟨hle, hne⟩
  simp only [cellAscLe, decide_eq_true_eq] at hle
  rcases hle with h | ⟨h3, h4⟩
  · exact Or.inl h
  · exact Or.inr ⟨h3.symm, by omega⟩

/-- Counterexample input for the top-4 highlight: A with 14 votes, B with
4 votes. -/
def rowsCE : List Row := [⟨"A", 14⟩, ⟨"B", 4⟩]

/-- C8 counterexample: on parties A:14 and B:4 the cell A with divisor 4,
whose raw quotient is 14/4 = 3.5, is highlighted while the cell B with
divisor 1, whose raw quotient 4 is strictly larger, is not: the script
selects the top 4 of the ROUNDED integer matrix (both cells round to 4 and
the stable tie goes to the earlier stacked cell A divisor 4), so the
highlighted set is not the global top 4 of the raw quotients
votes/divisor. -/
theorem quotient_matrix_top4_cex :
    (0, 4) ∈ top4Cells rowsCE ∧ (1, 1) ∉ top4Cells rowsCE ∧
      (14 : ℚ) / 4 < (4 : ℚ) / 1 := by
  refine ⟨?_, ?_, by norm_num⟩
  · rw [top4Cells_eq_K]
    decide
  · rw [top4Cells_eq_K]
    decide

/-- C8 amended: the matrix of quotient_matrix_top4 covers exactly the
divisors 1..4 of every row — each cell carries a divisor from [1,2,3,4]
and the half-even-rounded integer quotient votos/divisor of its row, and
every (row, divisor) pair with divisor in 1..4 has a cell — and a cell is
highlighted exactly when fewer than four cells strictly precede it in the
descending order of the ROUNDED integer quotients, with ties resolved by
the same input-order rule as the allocator's ranking: earlier stacked
(row-major generation) position first. -/
theorem quotient_matrix_top4_spec (rows : List Row) :
    (∀ c ∈ matrixCells rows 0, c.divisor ∈ divisores ∧ c.idx < rows.length ∧
      c.val = roundHalfEven (((rows.getD c.idx ⟨"", 0⟩).votos : ℚ) / c.divisor)) ∧
    (∀ j, j < rows.length → ∀ d ∈ divisores,
      (⟨j, d, roundHalfEven (((rows.getD j ⟨"", 0⟩).votos : ℚ) / d)⟩ : MCell) ∈
        matrixCells rows 0) ∧
    ∀ c ∈ matrixCells rows 0,
      ((c.idx, c.divisor) ∈ top4Cells rows ↔
        (matrixCells rows 0).countP (fun y => decide (cellR y c)) < 4) := by
  refine ⟨?_, ?_, ?_⟩
  · intro c hc
    rcases (mem_matrixCells_val rows 0 c).mp hc with ⟨j, hj, d, hd, rfl⟩
    simp only [Nat.zero_add]
    exact ⟨hd, hj, trivial⟩
  · intro j hj d hd
    exact (mem_matrixCells_val rows 0 _).mpr ⟨j, hj, d, hd, by rw [Nat.zero_add]⟩
  · intro c hc
    unfold top4Cells
    constructor
    · intro hmem
      rcases List.mem_map.mp hmem with ⟨c2, hc2, hpr⟩
      have hc2s : c2 ∈ sortValuesDesc cellAscLe (matrixCells rows 0) :=
        List.mem_of_mem_take hc2
      have hc2m : c2 ∈ matrixCells rows 0 :=
        (perm_sortValuesDesc cellAscLe (matrixCells rows 0)).mem_iff.mp hc2s
      have hcc : c2 = c := matrixCells_inj rows c2 c hc2m hc
        (congrArg Prod.fst hpr) (congrArg Prod.snd hpr)
      subst hcc
      have h3 := (mem_take_sorted cellR cellR_asymm _
        (pairwise_cellR_sorted rows) 4 c2 hc2s).mp hc2
      rwa [(perm_sortValuesDesc cellAscLe (matrixCells rows 0)).countP_eq] at h3
    · intro hcount
      have hcs : c ∈ sortValuesDesc cellAscLe (matrixCells rows 0) :=
        (perm_sortValuesDesc cellAscLe (matrixCells rows 0)).mem_iff.mpr hc
      have h2 : c ∈ (sortValuesDesc cellAscLe (matrixCells rows 0)).take 4 := by
        apply (mem_take_sorted cellR cellR_asymm _
          (pairwise_cellR_sorted rows) 4 c hcs).mpr
        rwa [(perm_sortValuesDesc cellAscLe (matrixCells rows 0)).countP_eq]
      exact List.mem_map.mpr ⟨c, h2, rfl⟩

theorem quotient_matrix_top4_spec_witness :
    (0, 4) ∈ top4Cells rowsCE ↔
      (matrixCells rowsCE 0).countP
        (fun y => decide (cellR y (⟨0, 4, 4⟩ : MCell))) < 4 :=
  (quotient_matrix_top4_spec rowsCE).2.2 ⟨0, 4, 4⟩ (by rw [matrixCells_eq_K]; decide)

theorem roundHalfEven_zero : roundHalfEven 0 = 0 := by
  unfold roundHalfEven
  norm_num

/-- C9: every entry of the percentage column is the number
votes/total_votes*100 rounded to two decimals, and when the vote total is
zero the percentage of every row is the number 0 (the only zero-total cell
a non-negative vote column can produce is NaN from 0/0, which fillna turns
into 0). -/
theorem pct_spec (votes : List ℕ) (k : ℕ) (hk : k < votes.length) :
    (pctColumn votes).getD k PFloat.nan =
      PFloat.num (if votes.sum = 0 then 0
        else round2 ((votes.getD k 0 : ℚ) / (votes.sum : ℚ) * 100)) := by
  have hlen : (pctColumn votes).length = votes.length := by simp [pctColumn]
  rw [List.getD_eq_getElem _ _ (by omega), List.getD_eq_getElem _ _ hk]
  unfold pctColumn
  rw [List.getElem_map]
  by_cases h : votes.sum = 0
  · have hz : votes[k] = 0 := List.sum_eq_zero_iff.mp h _ (List.getElem_mem hk)
    rw [if_pos h, hz, h]
    have h0 : round2 0 = 0 := by
      unfold round2
      rw [zero_mul, roundHalfEven_zero]
      norm_num
    simp [pdivTotal, pmul100, pfillna0, pround2, h0]
  · rw [if_neg h]
    simp [pdivTotal, h, pmul100, pfillna0, pround2]

theorem pct_spec_witness :
    (0 : ℕ) < 2 ∧
    (pctColumn [50, 150]).getD 0 PFloat.nan =
      PFloat.num (if ([50, 150] : List ℕ).sum = 0 then 0
        else round2 ((([50, 150] : List ℕ).getD 0 0 : ℚ) /
          ((([50, 150] : List ℕ).sum : ℕ) : ℚ) * 100)) :=
  ⟨by decide, pct_spec [50, 150] 0 (by decide)⟩

/-- C10: the sanitize pipeline for the Votos column produces non-negative
integers: non-numeric cells are coerced to 0, non-positive numeric values
are clipped to 0, and the remaining numeric values are rounded to the
nearest integer (half-even, so never more than one half away from the
clipped value); in particular 2.6 = 13/5 becomes 3. -/
theorem sanitize_spec :
    (∀ c : RawVote, 0 ≤ sanitizeVotos c) ∧
    sanitizeVotos RawVote.invalid = 0 ∧
    (∀ q : ℚ, q ≤ 0 → sanitizeVotos (RawVote.valid q) = 0) ∧
    (∀ q : ℚ, |(sanitizeVotos (RawVote.valid q) : ℚ) - max q 0| ≤ 1 / 2) ∧
    sanitizeVotos (RawVote.valid (13 / 5)) = 3 := by
  refine ⟨?_, ?_, ?_, ?_, ?_⟩
  · intro c
    exact roundHalfEven_nonneg (le_max_right _ _)
  · unfold sanitizeVotos coerceFill0
    rw [max_self]
    exact roundHalfEven_zero
  · intro q hq
    unfold sanitizeVotos coerceFill0
    rw [max_eq_right hq]
    exact roundHalfEven_zero
  · intro q
    unfold sanitizeVotos coerceFill0
    exact abs_roundHalfEven_sub_le (max q 0)
  · unfold sanitizeVotos coerceFill0
    have h1 : max (13 / 5 : ℚ) 0 = 13 / 5 := max_eq_left (by norm_num)
    have h2 : (13 / 5 : ℚ) = mkRat 13 5 := by
      rw [Rat.mkRat_eq_div]
      norm_num
    rw [h1, h2]
    decide

theorem sanitize_spec_witness :
    ((-3 : ℚ) ≤ 0) ∧ sanitizeVotos (RawVote.valid (-3)) = 0 :=
  ⟨by norm_num, sanitize_spec.2.2.1 (-3) (by norm_num)⟩

end SimuladorDhondt
